import Mathlib

/-!
Shallow embedding of the Chess-Encryption codec (src/encode.py, src/decode.py).

Moves are modelled as natural numbers (standing for their canonical UCI
encodings).  The external chess rules engine is modelled as an abstract
`Engine` supplying the legal-move list of a position (a position is the
list of moves played from the initial board of the current game), the
seeded shuffle, and the terminal-condition predicates.  The seeded
pseudo-random generator is modelled as an abstract state (`Nat`) with a
seeding function `initR` and a per-shuffle advance `nextR`.
-/

namespace ChessCodec

/-- Numeric value of one bit. -/
def bitVal (b : Bool) : Nat := if b then 1 else 0

/-- Value of a big-endian bit list, modelling Python's `int(bits, 2)`. -/
def bitsToNat (bs : List Bool) : Nat :=
  bs.foldl (fun a b => 2 * a + bitVal b) 0

/-- Little-endian bits of `v`, exactly `w` of them. -/
def natToBitsLE : Nat → Nat → List Bool
  | 0, _ => []
  | w + 1, v => (v % 2 == 1) :: natToBitsLE w (v / 2)

/-- Big-endian bits of `v` at fixed width `w`. -/
def natToBitsW (w v : Nat) : List Bool := (natToBitsLE w v).reverse

/-- Fuelled binary length of a natural number. -/
def bitLenAux : Nat → Nat → Nat
  | 0, _ => 0
  | f + 1, v => if v = 0 then 0 else bitLenAux f (v / 2) + 1

/-- Number of binary digits Python prints for `v` (at least one). -/
def bitLen (v : Nat) : Nat := if v = 0 then 1 else bitLenAux v v

/-- Model of Python's `format(v, '0{w}b')`: big-endian digits of `v`,
zero-padded on the left to width `w` (longer if `v` needs more digits). -/
def formatBin (w v : Nat) : List Bool := natToBitsW (max w (bitLen v)) v

/-- Fuelled floor of the base-2 logarithm. -/
def log2fuel : Nat → Nat → Nat
  | 0, _ => 0
  | f + 1, n => if n ≤ 1 then 0 else log2fuel f (n / 2) + 1

/-- Model of `floor(log2(n))` as used at encode.py:124 and decode.py:87. -/
def log2N (n : Nat) : Nat := log2fuel n n

/-- Start marker of the bit frame, the string "1010" (encode.py:78). -/
def START_MARKER : List Bool := [true, false, true, false]

/-- End marker of the bit frame, the string "0101" (encode.py:79). -/
def END_MARKER : List Bool := [false, true, false, true]

/-- Big-endian 8-bit expansion of one payload byte (`format(byte, '08b')`). -/
def byteBits (b : Nat) : List Bool := formatBin 8 b

/-- Concatenated bit expansion of the payload (encode.py:80). -/
def dataBitsOf (payload : List Nat) : List Bool := payload.flatMap byteBits

/-- Padding computed at encode.py:81-82. -/
def paddingNeeded (payload : List Nat) : Nat :=
  (8 - (START_MARKER.length + (dataBitsOf payload).length + END_MARKER.length) % 8) % 8

/-- The wrapped bitstream `complete_binary` built at encode.py:83. -/
def buildFrame (payload : List Nat) : List Bool :=
  START_MARKER ++ dataBitsOf payload ++ List.replicate (paddingNeeded payload) false ++ END_MARKER

/-- Does `pat` occur in `l` starting at index `i`? -/
def subAt (pat l : List Bool) (i : Nat) : Bool := decide ((l.drop i).take pat.length = pat)

/-- Model of Python's `str.find`: index of the first occurrence of `pat`. -/
def findSub (pat l : List Bool) : Option Nat :=
  (List.range (l.length + 1)).find? (subAt pat l)

/-- Model of Python's `str.rfind`: index of the last occurrence of `pat`. -/
def rfindSub (pat l : List Bool) : Option Nat :=
  (List.range (l.length + 1)).reverse.find? (subAt pat l)

/-- Errors raised inside `decode` (decode.py raises them as `ValueError`s). -/
inductive DecErr where
  | noGames
  | expired (msg : String)
  | moveNotFound
  | missingStart
  | missingEnd
  | emptyFrame
deriving DecidableEq, Repr

instance {ε α : Type} [DecidableEq ε] [DecidableEq α] : DecidableEq (Except ε α) := fun x y =>
  match x, y with
  | .error a, .error b =>
    if h : a = b then .isTrue (h ▸ rfl) else .isFalse (fun hc => h (Except.error.inj hc))
  | .error _, .ok _ => .isFalse (fun hc => Except.noConfusion hc)
  | .ok _, .error _ => .isFalse (fun hc => Except.noConfusion hc)
  | .ok a, .ok b =>
    if h : a = b then .isTrue (h ▸ rfl) else .isFalse (fun hc => h (Except.ok.inj hc))

/-- Fuelled byte-assembly loop of decode.py:133-137. -/
def bitsToBytesAux : Nat → List Bool → List Nat
  | 0, _ => []
  | f + 1, l => if l.length < 8 then [] else bitsToNat (l.take 8) :: bitsToBytesAux f (l.drop 8)

/-- Byte assembly of decode.py:133-137: consecutive 8-bit chunks, a trailing
incomplete chunk is dropped. -/
def bitsToBytes (l : List Bool) : List Nat := bitsToBytesAux l.length l

/-- Frame parsing of decode.py:98-137: first start marker, last end marker,
truncation of a non-byte-aligned residue, empty-data check. -/
def parseFrame (allBits : List Bool) : Except DecErr (List Nat) :=
  match findSub START_MARKER allBits with
  | none => .error .missingStart
  | some s =>
    let dataStart := s + START_MARKER.length
    match rfindSub END_MARKER allBits with
    | none => .error .missingEnd
    | some e =>
      if e ≤ dataStart then .error .missingEnd
      else
        let raw := (allBits.drop dataStart).take (e - dataStart)
        let r := raw.length % 8
        let dataBits := if r = 0 then raw else raw.take (raw.length - r)
        if dataBits.length = 0 then .error .emptyFrame
        else .ok (bitsToBytes dataBits)

/-- Human rendering of the elapsed time past expiry (decode.py:41-46). -/
def renderElapsed (d : Nat) : String :=
  if d < 60 then toString d ++ " seconds"
  else if d < 3600 then toString (d / 60) ++ " minutes"
  else toString (d / 3600) ++ " hours"

/-- Expiry stamp computed once at encode.py:87-92. -/
def expiryOf (now : Nat) (timer : Option Nat) : Option Nat :=
  match timer with
  | some t => if 0 < t then some (now + t) else none
  | none => none

/-- One emitted chess game: its stored seed, optional expiry stamp, and the
move list from the initial position. -/
structure GameRec where
  seed : Nat
  expiry : Option Nat
  moves : List Nat
deriving DecidableEq, Repr

/-- Abstract interface of the external rules engine and seeded generator. -/
structure Engine where
  legalMoves : List Nat → List Nat
  shuffleF : Nat → List Nat → List Nat
  nextR : Nat → Nat
  initR : Nat → Nat
  isGameOver : List Nat → Bool
  isInsufficientMaterial : List Nat → Bool
  canClaimDraw : List Nat → Bool

/-- Terminal-game trigger of encode.py:66-70. -/
def shouldEndGame (e : Engine) (pos : List Nat) : Bool :=
  e.isGameOver pos || e.isInsufficientMaterial pos || e.canClaimDraw pos ||
    decide (150 ≤ pos.length)

/-- Errors raised inside `encode`. -/
inductive EncErr where
  | emptyInput
  | badIndex
deriving DecidableEq, Repr

/-- State of the encode loop of encode.py:95-158.  `steps` is a ghost field
recording, for every executed bit-consuming step, the branching factor and
the exact bit segment consumed. -/
structure EncState where
  cursor : Nat
  board : List Nat
  seed : Nat
  rng : Nat
  games : List GameRec
  seedIdx : Nat
  steps : List (Nat × List Bool)
deriving DecidableEq, Repr

instance : Inhabited EncState := ⟨⟨0, [], 0, 0, [], 0, []⟩⟩

/-- Number of bits consumed by a bit-consuming step from state `s`
(`bits_to_encode` at encode.py:124-126). -/
def stepB (e : Engine) (F : List Bool) (s : EncState) : Nat :=
  min (log2N (e.legalMoves s.board).length) (F.length - s.cursor)

/-- The bit segment consumed by a bit-consuming step (encode.py:128). -/
def stepSeg (e : Engine) (F : List Bool) (s : EncState) : List Bool :=
  (F.drop s.cursor).take (stepB e F s)

/-- The move index computed from the consumed bits (encode.py:129). -/
def stepIdx (e : Engine) (F : List Bool) (s : EncState) : Nat :=
  bitsToNat (stepSeg e F s)

/-- The move chosen after shuffling (encode.py:133-134). -/
def stepMv (e : Engine) (F : List Bool) (s : EncState) : Nat :=
  (e.shuffleF s.rng (e.legalMoves s.board)).getD (stepIdx e F s) 0

/-- One iteration of the encode while-loop (encode.py:102-158). -/
def encodeIter (e : Engine) (seeds : Nat → Nat) (F : List Bool) (exp : Option Nat)
    (s : EncState) : Except EncErr EncState :=
  let lm := e.legalMoves s.board
  if lm.length ≤ 1 then
    let board1 := s.board ++ lm.take 1
    if lm.length = 0 ∨ e.isGameOver board1 = true then
      let ns := seeds s.seedIdx
      .ok ⟨s.cursor, [], ns, e.initR ns, s.games ++ [⟨s.seed, exp, board1⟩],
        s.seedIdx + 1, s.steps⟩
    else
      .ok { s with board := board1 }
  else
    if lm.length ≤ stepIdx e F s then .error .badIndex
    else
      let board1 := s.board ++ [stepMv e F s]
      let cursor1 := s.cursor + stepB e F s
      let steps1 := s.steps ++ [(lm.length, stepSeg e F s)]
      if shouldEndGame e board1 = true then
        let games1 := s.games ++ [⟨s.seed, exp, board1⟩]
        if cursor1 < F.length then
          let ns := seeds s.seedIdx
          .ok ⟨cursor1, [], ns, e.initR ns, games1, s.seedIdx + 1, steps1⟩
        else
          .ok ⟨cursor1, board1, s.seed, e.nextR s.rng, games1, s.seedIdx, steps1⟩
      else
        .ok ⟨cursor1, board1, s.seed, e.nextR s.rng, s.games, s.seedIdx, steps1⟩

/-- Fuelled encode while-loop (encode.py:102-158); `none` means the fuel ran
out before the loop finished. -/
def encodeLoop (e : Engine) (seeds : Nat → Nat) (F : List Bool) (exp : Option Nat) :
    Nat → EncState → Option (Except EncErr EncState)
  | 0, _ => none
  | fuel + 1, s =>
    if s.cursor < F.length then
      match encodeIter e seeds F exp s with
      | .error err => some (.error err)
      | .ok s1 => encodeLoop e seeds F exp fuel s1
    else some (.ok s)

/-- Final-game flush of encode.py:161-172. -/
def finishGames (s : EncState) (exp : Option Nat) : List GameRec :=
  if s.board.isEmpty then s.games else s.games ++ [⟨s.seed, exp, s.board⟩]

/-- Initial encode state (encode.py:95-101): cursor 0, fresh board, first
drawn seed, generator seeded from it. -/
def encInit (e : Engine) (seeds : Nat → Nat) : EncState :=
  ⟨0, [], seeds 0, e.initR (seeds 0), [], 1, []⟩

/-- Top-level encode (encode.py:72-202): rejects an empty payload, builds the
wrapped bitstream, runs the move loop, flushes the final game. -/
def encode (e : Engine) (seeds : Nat → Nat) (fuel : Nat) (payload : List Nat)
    (now : Nat) (timer : Option Nat) : Option (Except EncErr (List GameRec)) :=
  if payload.isEmpty then some (.error .emptyInput)
  else
    let exp := expiryOf now timer
    let F := buildFrame payload
    match encodeLoop e seeds F exp fuel (encInit e seeds) with
    | none => none
    | some (.error err) => some (.error err)
    | some (.ok sf) => some (.ok (finishGames sf exp))

/-- Bit extraction from one game's move list (decode.py:70-93), threading the
board and the generator state; also returns the final generator state. -/
def replayGame (e : Engine) : List Nat → List Nat → Nat → Except Unit (List Bool × Nat)
  | [], _, rng => .ok ([], rng)
  | m :: ms, board, rng =>
    let lm := e.legalMoves board
    if lm.length ≤ 1 then replayGame e ms (board ++ [m]) rng
    else
      let shuffled := e.shuffleF rng lm
      let idx := shuffled.indexOf m
      if shuffled.length ≤ idx then .error ()
      else
        let mb := log2N lm.length
        let emitted := if 0 < mb then formatBin mb idx else []
        match replayGame e ms (board ++ [m]) (e.nextR rng) with
        | .error _ => .error ()
        | .ok (bits, r) => .ok (emitted ++ bits, r)

/-- Bit extraction across the whole game set (decode.py:64-93). -/
def extractAll (e : Engine) : List GameRec → Except Unit (List Bool)
  | [] => .ok []
  | g :: gs =>
    match replayGame e g.moves [] (e.initR g.seed) with
    | .error _ => .error ()
    | .ok (bits, _) =>
      match extractAll e gs with
      | .error _ => .error ()
      | .ok more => .ok (bits ++ more)

/-- Decode pipeline after the expiry guard: extraction then frame parsing. -/
def decodeBody (e : Engine) (games : List GameRec) : Except DecErr (List Nat) :=
  match extractAll e games with
  | .error _ => .error .moveNotFound
  | .ok bits => parseFrame bits

/-- Top-level decode (decode.py:8-152): empty-set check, expiry guard read
from the first game, then extraction and frame parsing. -/
def decode (e : Engine) (now : Nat) (games : List GameRec) : Except DecErr (List Nat) :=
  match games with
  | [] => .error .noGames
  | g0 :: _ =>
    match g0.expiry with
    | some exp =>
      if exp < now then .error (.expired (renderElapsed (now - exp)))
      else decodeBody e games
    | none => decodeBody e games

/-- Filesystem effect of decode (decode.py:50-51, 58-59, 132-137, 149-152):
the output path holds the decoded bytes on success and is removed on every
error path. -/
def decodeFS (e : Engine) (now : Nat) (games : List GameRec) (fs : Option (List Nat)) :
    Except DecErr (List Nat) × Option (List Nat) :=
  match decode e now games with
  | .ok bs => (.ok bs, some bs)
  | .error err => (.error err, none)

/-- Filesystem effect of encode (encode.py:177-178, 200-202): the output path
is written only on success; the exception handler re-raises without touching
the filesystem. -/
def encodeFS (e : Engine) (seeds : Nat → Nat) (fuel : Nat) (payload : List Nat)
    (now : Nat) (timer : Option Nat) (fs : Option (List GameRec)) :
    Option (Except EncErr (List GameRec)) × Option (List GameRec) :=
  match encode e seeds fuel payload now timer with
  | some (.ok gs) => (some (.ok gs), some gs)
  | some (.error err) => (some (.error err), fs)
  | none => (none, fs)

/-- Concatenation of all bit segments consumed by the recorded steps. -/
def segsJoin (steps : List (Nat × List Bool)) : List Bool :=
  (steps.map Prod.snd).flatten

/-- Every recorded step consumed its full bit budget `floor(log2 n)`. -/
def allFull (steps : List (Nat × List Bool)) : Prop :=
  ∀ q ∈ steps, (Prod.snd q).length = log2N (Prod.fst q)

/-- The decode replay of the current game reproduces the encoder's generator
state: the two directions are synchronized on the in-progress game. -/
def SyncP (e : Engine) (s : EncState) : Prop :=
  ∃ bits, replayGame e s.board [] (e.initR s.seed) = .ok (bits, s.rng)

/-- Provided every step so far consumed its full bit budget, the bits
extracted from the finished games plus the current game are exactly the
consumed part of the wrapped bitstream. -/
def FullP (e : Engine) (F : List Bool) (s : EncState) : Prop :=
  allFull s.steps →
    ∃ pre cur, extractAll e s.games = .ok pre ∧
      replayGame e s.board [] (e.initR s.seed) = .ok (cur, s.rng) ∧
      pre ++ cur = F.take s.cursor

/-! Concrete engine instances used to evaluate the codec on explicit inputs.
The shuffle is the identity permutation (a legitimate permutation), the
generator is a counter, and the terminal predicates are all false. -/

/-- Constant seed stream. -/
def cSeeds : Nat → Nat := fun _ => 1

/-- Engine whose initial position has eight legal moves and every later
position four, so the first step consumes three bits and later steps two. -/
def cEngine : Engine where
  legalMoves := fun pos => if pos.length = 0 then [0, 1, 2, 3, 4, 5, 6, 7] else [0, 1, 2, 3]
  shuffleF := fun _ l => l
  nextR := fun r => r + 1
  initR := fun s => s
  isGameOver := fun _ => false
  isInsufficientMaterial := fun _ => false
  canClaimDraw := fun _ => false

/-- Engine with a constant branching factor of four. -/
def eng4 : Engine where
  legalMoves := fun _ => [0, 1, 2, 3]
  shuffleF := fun _ l => l
  nextR := fun r => r + 1
  initR := fun s => s
  isGameOver := fun _ => false
  isInsufficientMaterial := fun _ => false
  canClaimDraw := fun _ => false

/-- Game set produced by encoding the byte 0x00 with `cEngine`. -/
def cGames : List GameRec :=
  match encode cEngine cSeeds 100 [0] 0 none with
  | some (.ok gs) => gs
  | _ => []

/-- Final loop state of encoding the byte 0x00 with `eng4`. -/
def w4sf : EncState :=
  match encodeLoop eng4 cSeeds (buildFrame [0]) none 100 (encInit eng4 cSeeds) with
  | some (.ok s) => s
  | _ => default

/-- Engine whose every position has exactly one legal move. -/
def engF : Engine where
  legalMoves := fun _ => [7]
  shuffleF := fun _ l => l
  nextR := fun r => r + 1
  initR := fun s => s
  isGameOver := fun _ => false
  isInsufficientMaterial := fun _ => false
  canClaimDraw := fun _ => false

/-- State after one forced-move iteration of `engF` from the initial state. -/
def wIterF : EncState :=
  match encodeIter engF cSeeds [] none (encInit engF cSeeds) with
  | .ok s => s
  | _ => default

/-- A pre-existing output record, standing for a previously written file. -/
def gPrev : GameRec := ⟨1, none, [0]⟩

/-- Bitstream extracted back from the `cEngine` game set. -/
def cExtract : List Bool :=
  match extractAll cEngine cGames with
  | .ok bits => bits
  | _ => []

/-! Arithmetic facts about the bit-string primitives. -/

theorem bitVal_le (b : Bool) : bitVal b ≤ 1 := by
  cases b <;> simp [bitVal]

theorem bitsToNat_append (l : List Bool) (b : Bool) :
    bitsToNat (l ++ [b]) = 2 * bitsToNat l + bitVal b := by
  simp [bitsToNat, List.foldl_append]

theorem bitsToNat_lt (l : List Bool) : bitsToNat l < 2 ^ l.length := by
  induction l using List.reverseRecOn with
  | nil => simp [bitsToNat]
  | append_singleton xs b ih =>
    rw [bitsToNat_append]
    have hb := bitVal_le b
    have hp : 2 ^ (xs ++ [b]).length = 2 ^ xs.length * 2 := by
      simp [List.length_append, pow_succ]
    omega

theorem natToBitsLE_length (w v : Nat) : (natToBitsLE w v).length = w := by
  induction w generalizing v with
  | zero => simp [natToBitsLE]
  | succ w ih => simp [natToBitsLE, ih]

theorem natToBitsW_length (w v : Nat) : (natToBitsW w v).length = w := by
  simp [natToBitsW, natToBitsLE_length]

theorem natToBitsLE_zero (w : Nat) : natToBitsLE w 0 = List.replicate w false := by
  induction w with
  | zero => simp [natToBitsLE]
  | succ w ih => simp [natToBitsLE, ih, List.replicate_succ]

theorem bitsToNat_natToBitsW (w v : Nat) (h : v < 2 ^ w) :
    bitsToNat (natToBitsW w v) = v := by
  induction w generalizing v with
  | zero =>
    have : v = 0 := by simpa using h
    simp [this, natToBitsW, natToBitsLE, bitsToNat]
  | succ w ih =>
    have h2 : v / 2 < 2 ^ w := by
      rw [pow_succ] at h
      omega
    rw [natToBitsW, natToBitsLE, List.reverse_cons, bitsToNat_append]
    have : (natToBitsLE w (v / 2)).reverse = natToBitsW w (v / 2) := rfl
    rw [this, ih _ h2]
    rcases Nat.mod_two_eq_zero_or_one v with h0 | h1
    · simp [h0, bitVal]
      omega
    · simp [h1, bitVal]
      omega

theorem natToBitsW_bitsToNat (l : List Bool) : natToBitsW l.length (bitsToNat l) = l := by
  induction l using List.reverseRecOn with
  | nil => simp [natToBitsW, natToBitsLE]
  | append_singleton xs b ih =>
    rw [bitsToNat_append]
    have hlen : (xs ++ [b]).length = xs.length + 1 := by simp
    rw [hlen, natToBitsW, natToBitsLE]
    have hmod : (2 * bitsToNat xs + bitVal b) % 2 = bitVal b := by
      cases b <;> simp [bitVal] <;> omega
    have hdiv : (2 * bitsToNat xs + bitVal b) / 2 = bitsToNat xs := by
      cases b <;> simp [bitVal] <;> omega
    rw [hmod, hdiv, List.reverse_cons]
    have hrev : (natToBitsLE xs.length (bitsToNat xs)).reverse = xs := ih
    rw [hrev]
    have : (bitVal b == 1) = b := by cases b <;> simp [bitVal]
    rw [this]

theorem natToBitsLE_add (k j v : Nat) (h : v < 2 ^ k) :
    natToBitsLE (k + j) v = natToBitsLE k v ++ List.replicate j false := by
  induction k generalizing v with
  | zero =>
    have : v = 0 := by simpa using h
    simp [this, natToBitsLE, natToBitsLE_zero]
  | succ k ih =>
    have h2 : v / 2 < 2 ^ k := by
      rw [pow_succ] at h
      omega
    rw [Nat.succ_add, natToBitsLE, natToBitsLE, ih _ h2]
    simp

theorem natToBitsW_add (k j v : Nat) (h : v < 2 ^ k) :
    natToBitsW (j + k) v = List.replicate j false ++ natToBitsW k v := by
  rw [natToBitsW, Nat.add_comm j k, natToBitsLE_add k j v h, List.reverse_append,
    List.reverse_replicate]
  rfl

theorem bitLenAux_le (f v w : Nat) (h : v < 2 ^ w) : bitLenAux f v ≤ w := by
  induction f generalizing v w with
  | zero => simp [bitLenAux]
  | succ f ih =>
    rw [bitLenAux]
    by_cases hv : v = 0
    · simp [hv]
    · simp only [hv, if_false]
      rcases w with _ | w
      · simp at h
        omega
      · have h2 : v / 2 < 2 ^ w := by
          rw [pow_succ] at h
          omega
        have := ih (v / 2) w h2
        omega

theorem bitLen_le (v w : Nat) (h : v < 2 ^ w) (hw : 1 ≤ w) : bitLen v ≤ w := by
  rw [bitLen]
  split
  · exact hw
  · exact bitLenAux_le v v w h

theorem formatBin_eq (w v : Nat) (h : v < 2 ^ w) (hw : 1 ≤ w) :
    formatBin w v = natToBitsW w v := by
  rw [formatBin, Nat.max_eq_left (bitLen_le v w h hw)]

theorem formatBin_length (w v : Nat) (h : v < 2 ^ w) (hw : 1 ≤ w) :
    (formatBin w v).length = w := by
  rw [formatBin_eq w v h hw, natToBitsW_length]

theorem formatBin_roundtrip (l : List Bool) (hl : l ≠ []) :
    formatBin l.length (bitsToNat l) = l := by
  have h1 : 1 ≤ l.length := List.length_pos.mpr hl
  rw [formatBin_eq _ _ (bitsToNat_lt l) h1, natToBitsW_bitsToNat]

theorem formatBin_pad (l : List Bool) (w : Nat) (hl : l ≠ []) (hw : l.length ≤ w) :
    formatBin w (bitsToNat l) = List.replicate (w - l.length) false ++ l := by
  have h1 : 1 ≤ l.length := List.length_pos.mpr hl
  have hlt : bitsToNat l < 2 ^ w :=
    lt_of_lt_of_le (bitsToNat_lt l) (Nat.pow_le_pow_right (by omega) hw)
  rw [formatBin_eq _ _ hlt (by omega)]
  have hsplit : w = (w - l.length) + l.length := by omega
  rw [hsplit, natToBitsW_add l.length (w - l.length) _ (bitsToNat_lt l),
    natToBitsW_bitsToNat]
  simp

theorem log2fuel_spec (f n : Nat) (hf : n ≤ f) (h1 : 1 ≤ n) :
    2 ^ log2fuel f n ≤ n ∧ n < 2 ^ (log2fuel f n + 1) := by
  induction f generalizing n with
  | zero => omega
  | succ f ih =>
    rw [log2fuel]
    by_cases hn : n ≤ 1
    · have : n = 1 := by omega
      simp [this]
    · simp only [hn, if_false]
      have hd1 : 1 ≤ n / 2 := by omega
      have hdf : n / 2 ≤ f := by omega
      obtain ⟨a, b⟩ := ih (n / 2) hdf hd1
      constructor
      · rw [pow_succ]
        omega
      · rw [pow_succ]
        omega

theorem pow_log2N_le (n : Nat) (h : 1 ≤ n) : 2 ^ log2N n ≤ n :=
  (log2fuel_spec n n le_rfl h).1

theorem log2N_pos (n : Nat) (h : 2 ≤ n) : 1 ≤ log2N n := by
  by_contra hc
  have h0 : log2N n = 0 := by omega
  have := (log2fuel_spec n n le_rfl (by omega)).2
  rw [log2N] at h0
  rw [h0] at this
  simp at this
  omega

/-! Facts about the marker-search primitives `findSub` and `rfindSub`. -/

theorem rangeFindSpec (n : Nat) (p : Nat → Bool) (i : Nat)
    (h : (List.range n).find? p = some i) :
    p i = true ∧ ∀ j, j < i → p j = false := by
  induction n generalizing p i with
  | zero => simp [List.range_zero] at h
  | succ n ih =>
    rw [List.range_succ, List.find?_append] at h
    rcases hl : (List.range n).find? p with _ | k
    · rw [hl] at h
      simp at h
      rcases h with ⟨h1, h2⟩
      subst h2
      refine ⟨h1, fun j hj => ?_⟩
      have hnone := List.find?_eq_none.mp hl
      have : j ∈ List.range n := List.mem_range.mpr hj
      simpa using hnone j this
    · rw [hl] at h
      simp at h
      subst h
      exact ih p k hl

theorem revRangeFindSpec (n : Nat) (p : Nat → Bool) (i : Nat)
    (h : (List.range n).reverse.find? p = some i) :
    p i = true ∧ ∀ j, i < j → j < n → p j = false := by
  induction n generalizing i with
  | zero => simp [List.range_zero] at h
  | succ n ih =>
    rw [List.range_succ, List.reverse_append] at h
    simp only [List.reverse_singleton, List.singleton_append] at h
    by_cases hn : p n = true
    · rw [List.find?_cons_of_pos _ hn] at h
      simp at h
      subst h
      exact ⟨hn, fun j hj1 hj2 => by omega⟩
    · rw [List.find?_cons_of_neg _ hn] at h
      obtain ⟨h1, h2⟩ := ih i h
      refine ⟨h1, fun j hj1 hj2 => ?_⟩
      rcases Nat.lt_succ_iff_lt_or_eq.mp hj2 with hlt | heq
      · exact h2 j hj1 hlt
      · subst heq
        simpa using hn

theorem revRangeFindIntro (n : Nat) (p : Nat → Bool) (i : Nat)
    (hi : i < n) (hp : p i = true) (hmax : ∀ j, i < j → j < n → p j = false) :
    (List.range n).reverse.find? p = some i := by
  induction n with
  | zero => omega
  | succ n ih =>
    rw [List.range_succ, List.reverse_append]
    simp only [List.reverse_singleton, List.singleton_append]
    by_cases hin : i = n
    · subst hin
      exact List.find?_cons_of_pos _ hp
    · have hiltn : i < n := by omega
      have hpn : ¬ p n = true := by
        rw [hmax n hiltn (by omega)]
        simp
      rw [List.find?_cons_of_neg _ hpn]
      exact ih hiltn (fun j h1 h2 => hmax j h1 (by omega))

theorem subAt_short (pat l : List Bool) (j : Nat) (hp : pat ≠ [])
    (h : l.length < j + pat.length) : subAt pat l j = false := by
  rw [subAt, decide_eq_false_iff_not]
  intro hc
  have hlen : ((l.drop j).take pat.length).length = min pat.length (l.length - j) := by
    simp
  rw [hc] at hlen
  have hpos : 0 < pat.length := List.length_pos.mpr hp
  omega

theorem findSub_zero (pat l : List Bool) (h : subAt pat l 0 = true) :
    findSub pat l = some 0 := by
  rw [findSub, List.range_succ_eq_map]
  exact List.find?_cons_of_pos _ h

theorem findSub_spec (pat l : List Bool) (s : Nat) (h : findSub pat l = some s) :
    subAt pat l s = true ∧ ∀ j, j < s → subAt pat l j = false := by
  rw [findSub] at h
  exact ⟨(rangeFindSpec _ _ _ h).1, (rangeFindSpec _ _ _ h).2⟩

theorem rfindSub_spec (pat l : List Bool) (s : Nat) (hp : pat ≠ [])
    (h : rfindSub pat l = some s) :
    subAt pat l s = true ∧ ∀ j, s < j → subAt pat l j = false := by
  rw [rfindSub] at h
  obtain ⟨h1, h2⟩ := revRangeFindSpec _ _ _ h
  refine ⟨h1, fun j hj => ?_⟩
  by_cases hjn : j < l.length + 1
  · exact h2 j hj hjn
  · have hpos : 0 < pat.length := List.length_pos.mpr hp
    exact subAt_short pat l j hp (by omega)

theorem rfindSub_last (pat X : List Bool) (hp : pat ≠ []) :
    rfindSub pat (X ++ pat) = some X.length := by
  rw [rfindSub]
  apply revRangeFindIntro
  · simp only [List.length_append]
    omega
  · rw [subAt, List.drop_left, List.take_length]
    simp
  · intro j h1 h2
    apply subAt_short pat _ j hp
    simp at h2 ⊢
    omega

/-! Structure of the built frame. -/

theorem byteBits_length (b : Nat) (h : b < 256) : (byteBits b).length = 8 :=
  formatBin_length 8 b (by omega) (by omega)

theorem bitsToNat_byteBits (b : Nat) (h : b < 256) : bitsToNat (byteBits b) = b := by
  rw [byteBits, formatBin_eq 8 b (by omega) (by omega)]
  exact bitsToNat_natToBitsW 8 b (by omega)

theorem dataBitsOf_length (p : List Nat) (h : ∀ b ∈ p, b < 256) :
    (dataBitsOf p).length = 8 * p.length := by
  induction p with
  | nil => simp [dataBitsOf]
  | cons b rest ih =>
    rw [dataBitsOf, List.flatMap_cons]
    have hb : b < 256 := h b (by simp)
    have hr := ih (fun x hx => h x (by simp [hx]))
    rw [dataBitsOf] at hr
    simp [byteBits_length b hb, hr]
    ring

theorem paddingNeeded_zero (p : List Nat) (h : ∀ b ∈ p, b < 256) :
    paddingNeeded p = 0 := by
  rw [paddingNeeded, dataBitsOf_length p h]
  simp [START_MARKER, END_MARKER]
  omega

theorem buildFrame_eq (p : List Nat) (h : ∀ b ∈ p, b < 256) :
    buildFrame p = START_MARKER ++ dataBitsOf p ++ END_MARKER := by
  rw [buildFrame, paddingNeeded_zero p h]
  simp

theorem buildFrame_length (p : List Nat) (h : ∀ b ∈ p, b < 256) :
    (buildFrame p).length = 8 * p.length + 8 := by
  rw [buildFrame_eq p h]
  simp [START_MARKER, END_MARKER, dataBitsOf_length p h]

/-! Byte reassembly. -/

theorem bitsToBytesAux_nil (f : Nat) : bitsToBytesAux f [] = [] := by
  cases f <;> simp [bitsToBytesAux]

theorem bitsToBytesAux_congr (f g : Nat) (l : List Bool) (hf : l.length ≤ f)
    (hg : l.length ≤ g) : bitsToBytesAux f l = bitsToBytesAux g l := by
  induction f generalizing g l with
  | zero =>
    have : l = [] := List.length_eq_zero.mp (by omega)
    subst this
    rw [bitsToBytesAux_nil, bitsToBytesAux_nil]
  | succ f ih =>
    rcases g with _ | g
    · have : l = [] := List.length_eq_zero.mp (by omega)
      subst this
      rw [bitsToBytesAux_nil, bitsToBytesAux_nil]
    · rw [bitsToBytesAux, bitsToBytesAux]
      by_cases h8 : l.length < 8
      · simp [h8]
      · simp only [h8, if_false]
        have hd : (l.drop 8).length ≤ f := by simp; omega
        have hd2 : (l.drop 8).length ≤ g := by simp; omega
        rw [ih g (l.drop 8) hd hd2]

theorem bitsToBytes_cons8 (l : List Bool) (h8 : 8 ≤ l.length) :
    bitsToBytes l = bitsToNat (l.take 8) :: bitsToBytes (l.drop 8) := by
  rw [bitsToBytes]
  obtain ⟨f, hf⟩ : ∃ f, l.length = f + 1 := ⟨l.length - 1, by omega⟩
  rw [hf, bitsToBytesAux]
  have hlt : ¬ l.length < 8 := by omega
  simp only [hlt, if_false]
  rw [bitsToBytes, bitsToBytesAux_congr f (l.drop 8).length (l.drop 8) (by simp; omega) le_rfl]

theorem bitsToBytes_data (p : List Nat) (h : ∀ b ∈ p, b < 256) :
    bitsToBytes (dataBitsOf p) = p := by
  induction p with
  | nil => simp [dataBitsOf, bitsToBytes, bitsToBytesAux_nil]
  | cons b rest ih =>
    rw [dataBitsOf, List.flatMap_cons]
    have hb : b < 256 := h b (by simp)
    have hlen := byteBits_length b hb
    have h8 : 8 ≤ (byteBits b ++ rest.flatMap byteBits).length := by simp [hlen]
    rw [bitsToBytes_cons8 _ h8, List.take_left' hlen, List.drop_left' hlen,
      bitsToNat_byteBits b hb]
    have := ih (fun x hx => h x (by simp [hx]))
    rw [dataBitsOf] at this
    rw [this]

/-- Parsing inverts building: for a non-empty payload of genuine bytes the
frame parser recovers exactly the payload from the built frame. -/
theorem parse_build (p : List Nat) (hne : p ≠ []) (h : ∀ b ∈ p, b < 256) :
    parseFrame (buildFrame p) = .ok p := by
  have hfe := buildFrame_eq p h
  have hdl := dataBitsOf_length p h
  have hpos : 1 ≤ p.length := List.length_pos.mpr hne
  have hstart : findSub START_MARKER (buildFrame p) = some 0 := by
    apply findSub_zero
    rw [subAt, hfe]
    simp only [List.drop_zero, List.append_assoc]
    rw [List.take_left' (by rfl)]
    simp
  have hend : rfindSub END_MARKER (buildFrame p) = some (4 + 8 * p.length) := by
    have hsplit : buildFrame p = (START_MARKER ++ dataBitsOf p) ++ END_MARKER := by
      rw [hfe, List.append_assoc]
    rw [hsplit, rfindSub_last END_MARKER _ (by simp [END_MARKER])]
    congr 1
    simp [START_MARKER, hdl]
    omega
  have hsm4 : START_MARKER.length = 4 := rfl
  rw [parseFrame, hstart, hend, hsm4]
  dsimp only
  have hgt : ¬ (4 + 8 * p.length ≤ 0 + 4) := by omega
  rw [if_neg hgt]
  have hraw : ((buildFrame p).drop (0 + 4)).take (4 + 8 * p.length - (0 + 4)) =
      dataBitsOf p := by
    rw [hfe, List.append_assoc]
    rw [List.drop_left' (by simp [START_MARKER])]
    have h4 : 4 + 8 * p.length - (0 + 4) = (dataBitsOf p).length := by rw [hdl]; omega
    rw [h4, List.take_left]
  rw [hraw, hdl]
  have hmod : 8 * p.length % 8 = 0 := by omega
  rw [if_pos hmod]
  have hnz : ¬ ((dataBitsOf p).length = 0) := by rw [hdl]; omega
  rw [if_neg hnz, bitsToBytes_data p h]

/-! Encode-loop machinery. -/

theorem list_len_le_one {α : Type} (l : List α) (h : l.length ≤ 1) :
    l = [] ∨ ∃ a, l = [a] := by
  rcases l with _ | ⟨a, _ | ⟨b, t⟩⟩
  · exact Or.inl rfl
  · exact Or.inr ⟨a, rfl⟩
  · simp at h

theorem segsJoin_nil : segsJoin [] = [] := rfl

theorem segsJoin_snoc (st : List (Nat × List Bool)) (q : Nat × List Bool) :
    segsJoin (st ++ [q]) = segsJoin st ++ q.2 := by
  simp [segsJoin]

theorem allFull_prefix (st : List (Nat × List Bool)) (q : Nat × List Bool)
    (h : allFull (st ++ [q])) : allFull st := fun x hx => h x (by simp [hx])

theorem stepB_le (e : Engine) (F : List Bool) (s : EncState) :
    stepB e F s ≤ F.length - s.cursor := min_le_right _ _

theorem stepSeg_length (e : Engine) (F : List Bool) (s : EncState) :
    (stepSeg e F s).length = stepB e F s := by
  have := stepB_le e F s
  simp [stepSeg]
  omega

theorem stepIdx_lt (e : Engine) (F : List Bool) (s : EncState)
    (h2 : 2 ≤ (e.legalMoves s.board).length) :
    stepIdx e F s < (e.legalMoves s.board).length := by
  have hlt : stepIdx e F s < 2 ^ (stepSeg e F s).length := bitsToNat_lt _
  have hlen : (stepSeg e F s).length = stepB e F s := stepSeg_length e F s
  have hb : stepB e F s ≤ log2N (e.legalMoves s.board).length := min_le_left _ _
  have hpow : 2 ^ stepB e F s ≤ 2 ^ log2N (e.legalMoves s.board).length :=
    Nat.pow_le_pow_right (by omega) hb
  have hlog : 2 ^ log2N (e.legalMoves s.board).length ≤ (e.legalMoves s.board).length :=
    pow_log2N_le _ (by omega)
  rw [hlen] at hlt
  omega

/-- Case analysis for a successful encode-loop iteration. -/
theorem encodeIter_cases (e : Engine) (seeds : Nat → Nat) (F : List Bool) (exp : Option Nat)
    (s s1 : EncState) (he : encodeIter e seeds F exp s = .ok s1) :
    ((e.legalMoves s.board).length ≤ 1 ∧
      (((e.legalMoves s.board).length = 0 ∨
          e.isGameOver (s.board ++ (e.legalMoves s.board).take 1) = true) ∧
        s1 = ⟨s.cursor, [], seeds s.seedIdx, e.initR (seeds s.seedIdx),
          s.games ++ [⟨s.seed, exp, s.board ++ (e.legalMoves s.board).take 1⟩],
          s.seedIdx + 1, s.steps⟩ ∨
       ¬((e.legalMoves s.board).length = 0 ∨
          e.isGameOver (s.board ++ (e.legalMoves s.board).take 1) = true) ∧
        s1 = { s with board := s.board ++ (e.legalMoves s.board).take 1 })) ∨
    (2 ≤ (e.legalMoves s.board).length ∧
      (shouldEndGame e (s.board ++ [stepMv e F s]) = true ∧
        ((s.cursor + stepB e F s < F.length ∧
          s1 = ⟨s.cursor + stepB e F s, [], seeds s.seedIdx, e.initR (seeds s.seedIdx),
            s.games ++ [⟨s.seed, exp, s.board ++ [stepMv e F s]⟩], s.seedIdx + 1,
            s.steps ++ [((e.legalMoves s.board).length, stepSeg e F s)]⟩) ∨
         (¬(s.cursor + stepB e F s < F.length) ∧
          s1 = ⟨s.cursor + stepB e F s, s.board ++ [stepMv e F s], s.seed, e.nextR s.rng,
            s.games ++ [⟨s.seed, exp, s.board ++ [stepMv e F s]⟩], s.seedIdx,
            s.steps ++ [((e.legalMoves s.board).length, stepSeg e F s)]⟩)) ∨
       (shouldEndGame e (s.board ++ [stepMv e F s]) = false ∧
        s1 = ⟨s.cursor + stepB e F s, s.board ++ [stepMv e F s], s.seed, e.nextR s.rng,
          s.games, s.seedIdx,
          s.steps ++ [((e.legalMoves s.board).length, stepSeg e F s)]⟩))) := by
  rw [encodeIter] at he
  by_cases h1 : (e.legalMoves s.board).length ≤ 1
  · rw [if_pos h1] at he
    by_cases h2 : (e.legalMoves s.board).length = 0 ∨
        e.isGameOver (s.board ++ (e.legalMoves s.board).take 1) = true
    · rw [if_pos h2] at he
      simp only [Except.ok.injEq] at he
      exact Or.inl ⟨h1, Or.inl ⟨h2, he.symm⟩⟩
    · rw [if_neg h2] at he
      simp only [Except.ok.injEq] at he
      exact Or.inl ⟨h1, Or.inr ⟨h2, he.symm⟩⟩
  · rw [if_neg h1] at he
    have hidx : ¬ ((e.legalMoves s.board).length ≤ stepIdx e F s) := by
      have := stepIdx_lt e F s (by omega)
      omega
    rw [if_neg hidx] at he
    by_cases h3 : shouldEndGame e (s.board ++ [stepMv e F s]) = true
    · rw [if_pos h3] at he
      by_cases h4 : s.cursor + stepB e F s < F.length
      · rw [if_pos h4] at he
        simp only [Except.ok.injEq] at he
        exact Or.inr ⟨by omega, Or.inl ⟨h3, Or.inl ⟨h4, he.symm⟩⟩⟩
      · rw [if_neg h4] at he
        simp only [Except.ok.injEq] at he
        exact Or.inr ⟨by omega, Or.inl ⟨h3, Or.inr ⟨h4, he.symm⟩⟩⟩
    · rw [if_neg h3] at he
      simp only [Except.ok.injEq] at he
      exact Or.inr ⟨by omega, Or.inr ⟨by simpa using h3, he.symm⟩⟩

theorem encodeLoop_stop (e : Engine) (seeds : Nat → Nat) (F : List Bool) (exp : Option Nat)
    (fuel : Nat) (s sf : EncState) (hc : ¬ s.cursor < F.length)
    (h : encodeLoop e seeds F exp fuel s = some (.ok sf)) : sf = s := by
  rcases fuel with _ | f
  · simp [encodeLoop] at h
  · rw [encodeLoop, if_neg hc] at h
    simp at h
    exact h.symm

/-- The encode loop never raises the out-of-range move-index error. -/
theorem encodeLoop_no_badIndex (e : Engine) (seeds : Nat → Nat) (F : List Bool)
    (exp : Option Nat) : ∀ (fuel : Nat) (s : EncState) (err : EncErr),
    encodeLoop e seeds F exp fuel s ≠ some (.error err) := by
  intro fuel
  induction fuel with
  | zero => intro s err h; simp [encodeLoop] at h
  | succ f ih =>
    intro s err h
    rw [encodeLoop] at h
    by_cases hc : s.cursor < F.length
    · rw [if_pos hc] at h
      rcases hiter : encodeIter e seeds F exp s with e1 | s1
      · rw [encodeIter] at hiter
        by_cases h1 : (e.legalMoves s.board).length ≤ 1
        · rw [if_pos h1] at hiter
          by_cases h2 : (e.legalMoves s.board).length = 0 ∨
              e.isGameOver (s.board ++ (e.legalMoves s.board).take 1) = true
          · rw [if_pos h2] at hiter
            simp at hiter
          · rw [if_neg h2] at hiter
            simp at hiter
        · rw [if_neg h1] at hiter
          have hidx : ¬ ((e.legalMoves s.board).length ≤ stepIdx e F s) := by
            have := stepIdx_lt e F s (by omega)
            omega
          rw [if_neg hidx] at hiter
          by_cases h3 : shouldEndGame e (s.board ++ [stepMv e F s]) = true
          · rw [if_pos h3] at hiter
            by_cases h4 : s.cursor + stepB e F s < F.length
            · rw [if_pos h4] at hiter
              simp at hiter
            · rw [if_neg h4] at hiter
              simp at hiter
          · rw [if_neg h3] at hiter
            simp at hiter
      · rw [hiter] at h
        exact ih s1 err h
    · rw [if_neg hc] at h
      simp at h

/-! Decode-replay machinery. -/

theorem replay_nil (e : Engine) (board : List Nat) (rng : Nat) :
    replayGame e [] board rng = .ok ([], rng) := rfl

theorem replay_cons_le1 (e : Engine) (m : Nat) (ms board : List Nat) (rng : Nat)
    (h : (e.legalMoves board).length ≤ 1) :
    replayGame e (m :: ms) board rng = replayGame e ms (board ++ [m]) rng := by
  rw [replayGame, if_pos h]

theorem replay_cons_ge2 (e : Engine) (m : Nat) (ms board : List Nat) (rng : Nat)
    (h : ¬ (e.legalMoves board).length ≤ 1)
    (hfound : ¬ (e.shuffleF rng (e.legalMoves board)).length ≤
      (e.shuffleF rng (e.legalMoves board)).indexOf m) :
    replayGame e (m :: ms) board rng =
      match replayGame e ms (board ++ [m]) (e.nextR rng) with
      | .error _ => .error ()
      | .ok (bits, r) =>
        .ok ((if 0 < log2N (e.legalMoves board).length then
            formatBin (log2N (e.legalMoves board).length)
              ((e.shuffleF rng (e.legalMoves board)).indexOf m)
          else []) ++ bits, r) := by
  rw [replayGame, if_neg h, if_neg hfound]

theorem replay_cons_err (e : Engine) (m : Nat) (ms board : List Nat) (rng : Nat)
    (h : ¬ (e.legalMoves board).length ≤ 1)
    (hfound : (e.shuffleF rng (e.legalMoves board)).length ≤
      (e.shuffleF rng (e.legalMoves board)).indexOf m) :
    replayGame e (m :: ms) board rng = .error () := by
  rw [replayGame, if_neg h, if_pos hfound]

theorem replay_append (e : Engine) (ms ns : List Nat) : ∀ (board : List Nat) (rng : Nat),
    replayGame e (ms ++ ns) board rng =
      match replayGame e ms board rng with
      | .error _ => .error ()
      | .ok (bits, r) =>
        match replayGame e ns (board ++ ms) r with
        | .error _ => .error ()
        | .ok (bits2, r2) => .ok (bits ++ bits2, r2) := by
  induction ms with
  | nil =>
    intro board rng
    rw [List.nil_append, replay_nil]
    rcases h : replayGame e ns board rng with u | ⟨bits2, r2⟩
    · simp [h]
    · simp [h]
  | cons m ms ih =>
    intro board rng
    rw [List.cons_append]
    by_cases h1 : (e.legalMoves board).length ≤ 1
    · rw [replay_cons_le1 e m (ms ++ ns) board rng h1, ih,
        replay_cons_le1 e m ms board rng h1]
      have hbm : board ++ m :: ms = (board ++ [m]) ++ ms := by simp
      rw [hbm]
    · by_cases hidx : (e.shuffleF rng (e.legalMoves board)).length ≤
          (e.shuffleF rng (e.legalMoves board)).indexOf m
      · rw [replay_cons_err e m (ms ++ ns) board rng h1 hidx,
          replay_cons_err e m ms board rng h1 hidx]
      · rw [replay_cons_ge2 e m (ms ++ ns) board rng h1 hidx, ih,
          replay_cons_ge2 e m ms board rng h1 hidx]
        have hbm : board ++ m :: ms = (board ++ [m]) ++ ms := by simp
        rw [hbm]
        rcases h2 : replayGame e ms (board ++ [m]) (e.nextR rng) with u | ⟨b1, r1⟩
        · rfl
        · dsimp only
          rcases h3 : replayGame e ns (board ++ [m] ++ ms) r1 with u | ⟨b2, r2⟩
          · rfl
          · simp [List.append_assoc]

theorem extractAll_snoc (e : Engine) (gs : List GameRec) (g : GameRec)
    (pre bits : List Bool) (r : Nat)
    (h1 : extractAll e gs = .ok pre)
    (h2 : replayGame e g.moves [] (e.initR g.seed) = .ok (bits, r)) :
    extractAll e (gs ++ [g]) = .ok (pre ++ bits) := by
  induction gs generalizing pre with
  | nil =>
    rw [extractAll] at h1
    have : pre = [] := by simpa using h1.symm
    subst this
    rw [List.nil_append, extractAll, h2, extractAll]
    simp
  | cons g0 gs ih =>
    rw [extractAll] at h1
    rcases hg0 : replayGame e g0.moves [] (e.initR g0.seed) with u | ⟨b0, r0⟩
    · rw [hg0] at h1
      simp at h1
    · rw [hg0] at h1
      rcases hgs : extractAll e gs with u | more
      · rw [hgs] at h1
        simp at h1
      · rw [hgs] at h1
        simp at h1
        rw [List.cons_append, extractAll, hg0, ih more hgs]
        rw [← h1]
        simp

theorem replay_one_le1 (e : Engine) (board : List Nat) (rng : Nat) (m : Nat)
    (h : (e.legalMoves board).length ≤ 1) :
    replayGame e [m] board rng = .ok ([], rng) := by
  rw [replay_cons_le1 e m [] board rng h, replay_nil]

/-- A two-or-more-branch position replayed on the move the encoder chose:
the shuffled index is found and it is exactly the encoder's index. -/
theorem replay_one_step (e : Engine) (F : List Bool) (s : EncState)
    (HND : ∀ pos, (e.legalMoves pos).Nodup)
    (HPerm : ∀ r l, (e.shuffleF r l).Perm l)
    (h2 : 2 ≤ (e.legalMoves s.board).length) :
    replayGame e [stepMv e F s] s.board s.rng =
      .ok (formatBin (log2N (e.legalMoves s.board).length) (stepIdx e F s), e.nextR s.rng) := by
  have hlen : (e.shuffleF s.rng (e.legalMoves s.board)).length =
      (e.legalMoves s.board).length := (HPerm s.rng (e.legalMoves s.board)).length_eq
  have hidx : stepIdx e F s < (e.shuffleF s.rng (e.legalMoves s.board)).length := by
    rw [hlen]
    exact stepIdx_lt e F s h2
  have hmv : stepMv e F s = (e.shuffleF s.rng (e.legalMoves s.board))[stepIdx e F s] :=
    List.getD_eq_getElem _ 0 hidx
  have hmem : stepMv e F s ∈ e.shuffleF s.rng (e.legalMoves s.board) := by
    rw [hmv]
    exact List.getElem_mem hidx
  have hfound : ¬ (e.shuffleF s.rng (e.legalMoves s.board)).length ≤
      (e.shuffleF s.rng (e.legalMoves s.board)).indexOf (stepMv e F s) := by
    have := List.indexOf_lt_length.mpr hmem
    omega
  have hio : (e.shuffleF s.rng (e.legalMoves s.board)).indexOf (stepMv e F s) =
      stepIdx e F s := by
    have hnd : (e.shuffleF s.rng (e.legalMoves s.board)).Nodup :=
      (HPerm s.rng (e.legalMoves s.board)).symm.nodup (HND s.board)
    rw [hmv]
    exact List.indexOf_getElem hnd _ hidx
  rw [replay_cons_ge2 e (stepMv e F s) [] s.board s.rng (by omega) hfound, replay_nil]
  have hpos : 0 < log2N (e.legalMoves s.board).length := log2N_pos _ h2
  rw [if_pos hpos, hio]
  simp

theorem replay_snoc (e : Engine) (board : List Nat) (m : Nat) (r0 : Nat)
    (bits : List Bool) (r : Nat)
    (hrep : replayGame e board [] r0 = .ok (bits, r)) :
    replayGame e (board ++ [m]) [] r0 =
      match replayGame e [m] board r with
      | .error _ => .error ()
      | .ok (b2, r2) => .ok (bits ++ b2, r2) := by
  rw [replay_append e board [m] [] r0, hrep]
  rfl

/-- Invariant of the encode loop: the cursor stays in range, the consumed
segments tile the consumed part of the stream, all finished games carry the
expiry stamp, and a run that consumed anything ends on a non-empty board. -/
theorem encodeLoop_invA (e : Engine) (seeds : Nat → Nat) (F : List Bool) (exp : Option Nat) :
    ∀ (fuel : Nat) (s sf : EncState),
      s.cursor ≤ F.length →
      segsJoin s.steps = F.take s.cursor →
      (∀ g ∈ s.games, g.expiry = exp) →
      encodeLoop e seeds F exp fuel s = some (.ok sf) →
      sf.cursor = F.length ∧ segsJoin sf.steps = F ∧ (∀ g ∈ sf.games, g.expiry = exp) ∧
        (s.cursor < F.length → sf.board ≠ []) := by
  intro fuel
  induction fuel with
  | zero =>
    intro s sf _ _ _ h
    simp [encodeLoop] at h
  | succ f ih =>
    intro s sf hc hj hexp h
    rw [encodeLoop] at h
    by_cases hcur : s.cursor < F.length
    · rw [if_pos hcur] at h
      rcases hiter : encodeIter e seeds F exp s with err | s1
      · rw [hiter] at h
        simp at h
      · rw [hiter] at h
        dsimp only at h
        have hsegsnoc : segsJoin (s.steps ++ [((e.legalMoves s.board).length, stepSeg e F s)]) =
            F.take (s.cursor + stepB e F s) := by
          rw [segsJoin_snoc, hj, stepSeg, List.take_add]
        have hcur1 : s.cursor + stepB e F s ≤ F.length := by
          have := stepB_le e F s
          omega
        rcases encodeIter_cases e seeds F exp s s1 hiter with
          ⟨hle, ⟨hcond, heq⟩ | ⟨hcond, heq⟩⟩ |
          ⟨hge, ⟨hend, ⟨hlt, heq⟩ | ⟨hnlt, heq⟩⟩ | ⟨hnend, heq⟩⟩
        · obtain ⟨c1, c2, c3, c4⟩ := ih s1 sf (by rw [heq]; exact hc) (by rw [heq]; exact hj)
            (by
              rw [heq]
              intro g hg
              rcases List.mem_append.mp hg with hg1 | hg2
              · exact hexp g hg1
              · simp at hg2
                simp [hg2]) h
          exact ⟨c1, c2, c3, fun _ => c4 (by rw [heq]; exact hcur)⟩
        · obtain ⟨c1, c2, c3, c4⟩ := ih s1 sf (by rw [heq]; exact hc) (by rw [heq]; exact hj)
            (by rw [heq]; exact hexp) h
          exact ⟨c1, c2, c3, fun _ => c4 (by rw [heq]; exact hcur)⟩
        · obtain ⟨c1, c2, c3, c4⟩ := ih s1 sf (by rw [heq]; exact hcur1)
            (by rw [heq]; exact hsegsnoc)
            (by
              rw [heq]
              intro g hg
              rcases List.mem_append.mp hg with hg1 | hg2
              · exact hexp g hg1
              · simp at hg2
                simp [hg2]) h
          exact ⟨c1, c2, c3, fun _ => c4 (by rw [heq]; exact hlt)⟩
        · subst heq
          have hsf : sf = _ := encodeLoop_stop e seeds F exp f _ sf hnlt h
          subst hsf
          refine ⟨by show s.cursor + stepB e F s = F.length; omega, ?_, ?_, ?_⟩
          · show segsJoin (s.steps ++ [((e.legalMoves s.board).length, stepSeg e F s)]) = F
            have hfin : s.cursor + stepB e F s = F.length := by omega
            rw [hsegsnoc, hfin, List.take_length]
          · intro g hg
            rcases List.mem_append.mp hg with hg1 | hg2
            · exact hexp g hg1
            · simp at hg2
              simp [hg2]
          · intro _
            simp
        · by_cases hc1 : s.cursor + stepB e F s < F.length
          · obtain ⟨c1, c2, c3, c4⟩ := ih s1 sf (by rw [heq]; exact hcur1)
              (by rw [heq]; exact hsegsnoc) (by rw [heq]; exact hexp) h
            exact ⟨c1, c2, c3, fun _ => c4 (by rw [heq]; exact hc1)⟩
          · subst heq
            have hsf : sf = _ := encodeLoop_stop e seeds F exp f _ sf hc1 h
            subst hsf
            refine ⟨by show s.cursor + stepB e F s = F.length; omega, ?_, hexp, ?_⟩
            · show segsJoin (s.steps ++ [((e.legalMoves s.board).length, stepSeg e F s)]) = F
              have hfin : s.cursor + stepB e F s = F.length := by omega
              rw [hsegsnoc, hfin, List.take_length]
            · intro _
              simp
    · rw [if_neg hcur] at h
      simp at h
      subst h
      have hceq : s.cursor = F.length := by omega
      refine ⟨hceq, ?_, hexp, fun hlt => absurd hlt hcur⟩
      rw [hj, hceq, List.take_length]

/-- Replay of the board extended by the encoder's chosen move at a
two-or-more-branch position, when that step consumed its full budget:
the emitted bits are exactly the consumed segment. -/
theorem replay_board_step (e : Engine) (F : List Bool) (s : EncState)
    (HND : ∀ pos, (e.legalMoves pos).Nodup)
    (HPerm : ∀ r l, (e.shuffleF r l).Perm l)
    (hge : 2 ≤ (e.legalMoves s.board).length)
    (hlast : (stepSeg e F s).length = log2N (e.legalMoves s.board).length)
    (cur : List Bool)
    (hrep : replayGame e s.board [] (e.initR s.seed) = .ok (cur, s.rng)) :
    replayGame e (s.board ++ [stepMv e F s]) [] (e.initR s.seed) =
      .ok (cur ++ stepSeg e F s, e.nextR s.rng) := by
  have hseg : formatBin (log2N (e.legalMoves s.board).length) (stepIdx e F s) =
      stepSeg e F s := by
    have hne : stepSeg e F s ≠ [] := by
      have hpos := log2N_pos _ hge
      intro hcon
      rw [hcon] at hlast
      simp at hlast
      omega
    rw [stepIdx, ← hlast, formatBin_roundtrip _ hne]
  rw [replay_snoc e s.board (stepMv e F s) _ cur s.rng hrep,
    replay_one_step e F s HND HPerm hge, hseg]

/-- Replay of the board extended by a forced move (zero bits, generator
untouched). -/
theorem replay_board_forced (e : Engine) (s : EncState) (m : Nat)
    (hle : (e.legalMoves s.board).length ≤ 1) (cur : List Bool)
    (hrep : replayGame e s.board [] (e.initR s.seed) = .ok (cur, s.rng)) :
    replayGame e (s.board ++ [m]) [] (e.initR s.seed) = .ok (cur, s.rng) := by
  rw [replay_snoc e s.board m _ cur s.rng hrep, replay_one_le1 e s.board s.rng m hle]
  simp

/-- Main extraction invariant: as long as every recorded step consumed its
full bit budget, the extracted bits of the game set equal the consumed part
of the wrapped bitstream — unless the run ended exactly on a terminal-game
trigger (in which case the final game is recorded twice). -/
theorem encodeLoop_full (e : Engine) (seeds : Nat → Nat) (F : List Bool) (exp : Option Nat)
    (HND : ∀ pos, (e.legalMoves pos).Nodup)
    (HPerm : ∀ r l, (e.shuffleF r l).Perm l) :
    ∀ (fuel : Nat) (s sf : EncState),
      FullP e F s →
      encodeLoop e seeds F exp fuel s = some (.ok sf) →
      FullP e F sf ∨ shouldEndGame e sf.board = true := by
  intro fuel
  induction fuel with
  | zero =>
    intro s sf _ h
    simp [encodeLoop] at h
  | succ f ih =>
    intro s sf hP h
    rw [encodeLoop] at h
    by_cases hcur : s.cursor < F.length
    · rw [if_pos hcur] at h
      rcases hiter : encodeIter e seeds F exp s with err | s1
      · rw [hiter] at h
        simp at h
      · rw [hiter] at h
        dsimp only at h
        rcases encodeIter_cases e seeds F exp s s1 hiter with
          ⟨hle, ⟨hcond, heq⟩ | ⟨hcond, heq⟩⟩ |
          ⟨hge, ⟨hend, ⟨hlt, heq⟩ | ⟨hnlt, heq⟩⟩ | ⟨hnend, heq⟩⟩
        · refine ih s1 sf ?_ h
          rw [heq]
          intro hall
          obtain ⟨pre, cur, hpre, hrep, hsum⟩ := hP hall
          rcases list_len_le_one _ hle with hnil | ⟨m0, hm⟩
          · refine ⟨pre ++ cur, [], ?_, replay_nil _ _ _, by simp [hsum]⟩
            apply extractAll_snoc e s.games _ pre cur s.rng hpre
            simp only [hnil, List.take_nil, List.append_nil]
            exact hrep
          · refine ⟨pre ++ cur, [], ?_, replay_nil _ _ _, by simp [hsum]⟩
            apply extractAll_snoc e s.games _ pre cur s.rng hpre
            simp only [hm, List.take_cons_succ, List.take_zero]
            exact replay_board_forced e s m0 hle cur hrep
        · refine ih s1 sf ?_ h
          rw [heq]
          intro hall
          obtain ⟨pre, cur, hpre, hrep, hsum⟩ := hP hall
          rcases list_len_le_one _ hle with hnil | ⟨m0, hm⟩
          · exact absurd (Or.inl (by rw [hnil]; rfl)) hcond
          · refine ⟨pre, cur, hpre, ?_, hsum⟩
            simp only [hm, List.take_cons_succ, List.take_zero]
            exact replay_board_forced e s m0 hle cur hrep
        · refine ih s1 sf ?_ h
          rw [heq]
          intro hall
          have hallpre : allFull s.steps := allFull_prefix _ _ hall
          have hlast : (stepSeg e F s).length = log2N (e.legalMoves s.board).length :=
            hall ((e.legalMoves s.board).length, stepSeg e F s) (by simp)
          obtain ⟨pre, cur, hpre, hrep, hsum⟩ := hP hallpre
          refine ⟨pre ++ (cur ++ stepSeg e F s), [], ?_, replay_nil _ _ _, ?_⟩
          · exact extractAll_snoc e s.games _ pre (cur ++ stepSeg e F s) (e.nextR s.rng) hpre
              (replay_board_step e F s HND HPerm hge hlast cur hrep)
          · rw [List.append_nil, List.take_add, ← hsum, stepSeg, List.append_assoc]
        · subst heq
          have hsf : sf = _ := encodeLoop_stop e seeds F exp f _ sf hnlt h
          subst hsf
          exact Or.inr hend
        · refine ih s1 sf ?_ h
          rw [heq]
          intro hall
          have hallpre : allFull s.steps := allFull_prefix _ _ hall
          have hlast : (stepSeg e F s).length = log2N (e.legalMoves s.board).length :=
            hall ((e.legalMoves s.board).length, stepSeg e F s) (by simp)
          obtain ⟨pre, cur, hpre, hrep, hsum⟩ := hP hallpre
          refine ⟨pre, cur ++ stepSeg e F s,
            hpre, replay_board_step e F s HND HPerm hge hlast cur hrep, ?_⟩
          rw [List.take_add, ← hsum, stepSeg, List.append_assoc]
    · rw [if_neg hcur] at h
      simp at h
      subst h
      exact Or.inl hP

/-- Generator-state synchronization invariant: replaying the in-progress
game with the stored seed always reproduces the encoder's current generator
state, whether or not any step was truncated. -/
theorem encodeLoop_sync (e : Engine) (seeds : Nat → Nat) (F : List Bool) (exp : Option Nat)
    (HND : ∀ pos, (e.legalMoves pos).Nodup)
    (HPerm : ∀ r l, (e.shuffleF r l).Perm l) :
    ∀ (fuel : Nat) (s sf : EncState),
      SyncP e s →
      encodeLoop e seeds F exp fuel s = some (.ok sf) →
      SyncP e sf := by
  intro fuel
  induction fuel with
  | zero =>
    intro s sf _ h
    simp [encodeLoop] at h
  | succ f ih =>
    intro s sf hS h
    rw [encodeLoop] at h
    by_cases hcur : s.cursor < F.length
    · rw [if_pos hcur] at h
      rcases hiter : encodeIter e seeds F exp s with err | s1
      · rw [hiter] at h
        simp at h
      · rw [hiter] at h
        dsimp only at h
        obtain ⟨cur, hrep⟩ := hS
        rcases encodeIter_cases e seeds F exp s s1 hiter with
          ⟨hle, ⟨hcond, heq⟩ | ⟨hcond, heq⟩⟩ |
          ⟨hge, ⟨hend, ⟨hlt, heq⟩ | ⟨hnlt, heq⟩⟩ | ⟨hnend, heq⟩⟩
        · refine ih s1 sf ?_ h
          rw [heq]
          exact ⟨[], rfl⟩
        · refine ih s1 sf ?_ h
          rw [heq]
          rcases list_len_le_one _ hle with hnil | ⟨m0, hm⟩
          · exact absurd (Or.inl (by rw [hnil]; rfl)) hcond
          · refine ⟨cur, ?_⟩
            simp only [hm, List.take_cons_succ, List.take_zero]
            exact replay_board_forced e s m0 hle cur hrep
        · refine ih s1 sf ?_ h
          rw [heq]
          exact ⟨[], rfl⟩
        · subst heq
          have hsf : sf = _ := encodeLoop_stop e seeds F exp f _ sf hnlt h
          subst hsf
          refine ⟨cur ++ formatBin (log2N (e.legalMoves s.board).length) (stepIdx e F s), ?_⟩
          rw [replay_snoc e s.board (stepMv e F s) _ cur s.rng hrep,
            replay_one_step e F s HND HPerm hge]
        · refine ih s1 sf ?_ h
          rw [heq]
          refine ⟨cur ++ formatBin (log2N (e.legalMoves s.board).length) (stepIdx e F s), ?_⟩
          rw [replay_snoc e s.board (stepMv e F s) _ cur s.rng hrep,
            replay_one_step e F s HND HPerm hge]
    · rw [if_neg hcur] at h
      simp at h
      subst h
      exact hS

theorem subAt_le (pat l : List Bool) (i : Nat) (hp : pat ≠ [])
    (h : subAt pat l i = true) : i + pat.length ≤ l.length := by
  rw [subAt, decide_eq_true_eq] at h
  have hlen : ((l.drop i).take pat.length).length = min pat.length (l.length - i) := by
    simp
  rw [h] at hlen
  have hpos : 0 < pat.length := List.length_pos.mpr hp
  omega

/-- C2: the wrapped bitstream is the 4-bit start marker, then the big-endian
8-bit expansion of each payload byte in order, then the minimal number of
zero padding bits, then the 4-bit end marker, and its length is a multiple
of 8.  (With 4-bit markers the minimal padding is always zero.) -/
theorem C2_frame_layout (p : List Nat) (h : ∀ b ∈ p, b < 256) :
    buildFrame p = START_MARKER ++ dataBitsOf p ++
      List.replicate (paddingNeeded p) false ++ END_MARKER ∧
    dataBitsOf p = p.flatMap byteBits ∧
    (∀ b ∈ p, (byteBits b).length = 8 ∧ bitsToNat (byteBits b) = b) ∧
    paddingNeeded p = (8 - (4 + 8 * p.length + 4) % 8) % 8 ∧
    (START_MARKER.length + (dataBitsOf p).length + paddingNeeded p + END_MARKER.length) % 8
      = 0 ∧
    (∀ k, (START_MARKER.length + (dataBitsOf p).length + k + END_MARKER.length) % 8 = 0 →
      paddingNeeded p ≤ k) ∧
    (buildFrame p).length % 8 = 0 := by
  refine ⟨rfl, rfl, ?_, ?_, ?_, ?_, ?_⟩
  · exact fun b hb => ⟨byteBits_length b (h b hb), bitsToNat_byteBits b (h b hb)⟩
  · rw [paddingNeeded, dataBitsOf_length p h]
    rfl
  · rw [paddingNeeded_zero p h, dataBitsOf_length p h]
    simp [START_MARKER, END_MARKER]
    omega
  · intro k _
    rw [paddingNeeded_zero p h]
    omega
  · rw [buildFrame_length p h]
    omega

/-- C2 witness at the payload 0xAB 0xCD. -/
theorem C2_frame_layout_witness :
    buildFrame [171, 205] = START_MARKER ++ dataBitsOf [171, 205] ++
      List.replicate (paddingNeeded [171, 205]) false ++ END_MARKER ∧
    (buildFrame [171, 205]).length % 8 = 0 := by
  have hw := C2_frame_layout [171, 205] (by decide)
  exact ⟨hw.1, hw.2.2.2.2.2.2⟩

/-- C3: frame parsing fails with the missing-start-marker error when 1010 is
absent, with the missing-end-marker error when no occurrence of 0101 starts
strictly after the end of the first start marker, and with the empty-frame
error when the region between the markers truncates to zero length; the
start marker used is the first occurrence and the end marker used is the
last occurrence in the stream. -/
theorem C3_parse_markers (allBits : List Bool) :
    ((∀ i, subAt START_MARKER allBits i = false) →
      parseFrame allBits = .error .missingStart) ∧
    (∀ si, findSub START_MARKER allBits = some si →
      subAt START_MARKER allBits si = true ∧
        ∀ j, j < si → subAt START_MARKER allBits j = false) ∧
    (∀ si, findSub START_MARKER allBits = some si →
      (∀ j, si + 4 < j → subAt END_MARKER allBits j = false) →
      parseFrame allBits = .error .missingEnd) ∧
    (∀ ei, rfindSub END_MARKER allBits = some ei →
      subAt END_MARKER allBits ei = true ∧
        ∀ j, ei < j → subAt END_MARKER allBits j = false) ∧
    (∀ si ei, findSub START_MARKER allBits = some si →
      rfindSub END_MARKER allBits = some ei →
      si + 4 < ei → ei - (si + 4) < 8 →
      parseFrame allBits = .error .emptyFrame) := by
  refine ⟨?_, ?_, ?_, ?_, ?_⟩
  · intro hno
    have hfind : findSub START_MARKER allBits = none := by
      rw [findSub]
      exact List.find?_eq_none.mpr (fun x _ => by simp [hno x])
    rw [parseFrame, hfind]
  · intro si hfind
    exact findSub_spec _ _ _ hfind
  · intro si hfind hno
    rcases hr : rfindSub END_MARKER allBits with _ | ei
    · rw [parseFrame, hfind, hr]
    · have hspec := rfindSub_spec END_MARKER allBits ei (by simp [END_MARKER]) hr
      have hle : ei ≤ si + 4 := by
        by_contra hgt
        have := hno ei (by omega)
        rw [hspec.1] at this
        simp at this
      rw [parseFrame, hfind, hr]
      dsimp only
      rw [if_pos (by show ei ≤ si + START_MARKER.length; simpa using hle)]
  · intro ei hr
    exact rfindSub_spec END_MARKER allBits ei (by simp [END_MARKER]) hr
  · intro si ei hfind hr hgt hshort
    have hspec := rfindSub_spec END_MARKER allBits ei (by simp [END_MARKER]) hr
    have heil : ei + 4 ≤ allBits.length := by
      have := subAt_le END_MARKER allBits ei (by simp [END_MARKER]) hspec.1
      simpa [END_MARKER] using this
    rw [parseFrame, hfind, hr]
    dsimp only
    rw [if_neg (by show ¬ (ei ≤ si + START_MARKER.length); simp [START_MARKER]; omega)]
    have hrawlen : ((allBits.drop (si + START_MARKER.length)).take
        (ei - (si + START_MARKER.length))).length = ei - (si + 4) := by
      simp [START_MARKER]
      omega
    have h1 : ¬ (((allBits.drop (si + START_MARKER.length)).take
        (ei - (si + START_MARKER.length))).length % 8 = 0) := by
      rw [hrawlen]
      omega
    rw [if_neg h1]
    have h2 : (((allBits.drop (si + START_MARKER.length)).take
          (ei - (si + START_MARKER.length))).take
        (((allBits.drop (si + START_MARKER.length)).take
            (ei - (si + START_MARKER.length))).length -
          ((allBits.drop (si + START_MARKER.length)).take
            (ei - (si + START_MARKER.length))).length % 8)).length = 0 := by
      rw [List.length_take, hrawlen]
      omega
    rw [if_pos h2]

/-- C3 witness: the marker-selection facts and the empty-frame branch on
concrete bitstreams. -/
theorem C3_parse_markers_witness :
    subAt START_MARKER [true, false, true, false, true] 0 = true ∧
    subAt END_MARKER [false, true, false, true] 0 = true ∧
    parseFrame [true, false, true, false, true, true, false, true, false, true] =
      .error .emptyFrame := by
  refine ⟨?_, ?_, ?_⟩
  · exact ((C3_parse_markers _).2.1 0 (by decide)).1
  · exact ((C3_parse_markers _).2.2.2.1 0 (by decide)).1
  · exact (C3_parse_markers _).2.2.2.2 0 6 (by decide) (by decide) (by decide) (by decide)

/-- C1 counterexample: encoding the single byte 0x00 against an engine whose
initial position has eight legal moves and every later one four (identity
shuffle, so every engine assumption of the round-trip claim holds) succeeds,
but decoding the produced game set fails with a missing-end-marker error
instead of returning the payload: the final encode step consumed only one
bit while decode re-emits it left-padded to two bits, which destroys the end
marker. -/
theorem C1_roundtrip_cex :
    encode cEngine cSeeds 100 [0] 0 none = some (.ok cGames) ∧
    decode cEngine 0 cGames = .error .missingEnd ∧
    (Except.error DecErr.missingEnd : Except DecErr (List Nat)) ≠ .ok [0] := by
  refine ⟨by decide, by decide, by decide⟩

/-- C1 (amended): decoding inverts encoding for every non-empty byte payload,
engine and seed stream — provided every bit-consuming step consumed its full
`floor(log2 n)` bit budget (no truncation at end of stream) and the final
position did not trigger the terminal-game condition (which would record the
last game twice). -/
theorem C1_roundtrip_amended (e : Engine) (seeds : Nat → Nat) (p : List Nat)
    (fuel now : Nat) (sf : EncState)
    (hne : p ≠ []) (h256 : ∀ b ∈ p, b < 256)
    (HND : ∀ pos, (e.legalMoves pos).Nodup)
    (HPerm : ∀ r l, (e.shuffleF r l).Perm l)
    (henc : encodeLoop e seeds (buildFrame p) none fuel (encInit e seeds) = some (.ok sf))
    (hfull : allFull sf.steps)
    (hnend : shouldEndGame e sf.board = false) :
    encode e seeds fuel p now none = some (.ok (finishGames sf none)) ∧
    decode e now (finishGames sf none) = .ok p := by
  have hFlen := buildFrame_length p h256
  have hFpos : 0 < (buildFrame p).length := by omega
  obtain ⟨hcur, _, hexpall, hbd⟩ := encodeLoop_invA e seeds (buildFrame p) none fuel
    (encInit e seeds) sf (Nat.zero_le _) (by rfl) (by simp [encInit]) henc
  have hbne : sf.board ≠ [] := hbd hFpos
  rcases encodeLoop_full e seeds (buildFrame p) none HND HPerm fuel (encInit e seeds) sf
      (fun _ => ⟨[], [], rfl, rfl, rfl⟩) henc with hFull | hdup
  · obtain ⟨pre, cur, hpre, hrep, hsum⟩ := hFull hfull
    have hsum' : pre ++ cur = buildFrame p := by
      rw [hsum, hcur, List.take_length]
    have hfin : finishGames sf none = sf.games ++ [⟨sf.seed, none, sf.board⟩] := by
      rw [finishGames, if_neg (by simp [List.isEmpty_iff]; exact hbne)]
    have hext : extractAll e (finishGames sf none) = .ok (buildFrame p) := by
      rw [hfin, ← hsum']
      exact extractAll_snoc e sf.games _ pre cur sf.rng hpre hrep
    have hencode : encode e seeds fuel p now none = some (.ok (finishGames sf none)) := by
      rw [encode, if_neg (by simp [hne])]
      dsimp only [expiryOf]
      rw [henc]
    refine ⟨hencode, ?_⟩
    have hexpfin : ∀ g ∈ finishGames sf none, g.expiry = none := by
      rw [hfin]
      intro g hg
      rcases List.mem_append.mp hg with hg1 | hg2
      · exact hexpall g hg1
      · simp at hg2
        simp [hg2]
    rcases hfg : finishGames sf none with _ | ⟨g0, rest⟩
    · rw [hfg] at hfin
      simp at hfin
    · have hg0 : g0.expiry = none := hexpfin g0 (by rw [hfg]; simp)
      rw [decode, hg0]
      dsimp only
      rw [hfg] at hext
      rw [decodeBody, hext]
      dsimp only
      exact parse_build p hne h256
  · rw [hdup] at hnend
    cases hnend

/-- C1 witness for the amended round trip: with a constant branching factor
of four, the byte 0x00 encodes into one game of eight moves and decodes back
exactly. -/
theorem C1_roundtrip_amended_witness :
    encode eng4 cSeeds 100 [0] 0 none = some (.ok (finishGames w4sf none)) ∧
    decode eng4 0 (finishGames w4sf none) = .ok [0] :=
  C1_roundtrip_amended eng4 cSeeds [0] 100 0 w4sf (by decide) (by decide)
    (fun pos => (by decide : ([0, 1, 2, 3] : List Nat).Nodup))
    (fun r l => List.Perm.refl l) (by decide)
    (by show ∀ q ∈ w4sf.steps, (Prod.snd q).length = log2N (Prod.fst q); decide) (by decide)

/-- C4: at every position with at least two legal moves the encoder takes
`min(floor(log2 n), bits remaining)` bits, the resulting index is always a
valid index into the legal-move list, and the out-of-range error branch is
unreachable: neither the loop nor top-level encode ever raises it. -/
theorem C4_no_index_error :
    (∀ (e : Engine) (F : List Bool) (s : EncState),
      2 ≤ (e.legalMoves s.board).length →
      stepB e F s = min (log2N (e.legalMoves s.board).length) (F.length - s.cursor) ∧
      stepIdx e F s < (e.legalMoves s.board).length) ∧
    (∀ (e : Engine) (seeds : Nat → Nat) (F : List Bool) (exp : Option Nat) (fuel : Nat)
      (s : EncState) (err : EncErr),
      encodeLoop e seeds F exp fuel s ≠ some (.error err)) ∧
    (∀ (e : Engine) (seeds : Nat → Nat) (fuel : Nat) (p : List Nat) (now : Nat)
      (timer : Option Nat),
      encode e seeds fuel p now timer ≠ some (.error .badIndex)) := by
  refine ⟨fun e F s h2 => ⟨rfl, stepIdx_lt e F s h2⟩, encodeLoop_no_badIndex, ?_⟩
  intro e seeds fuel p now timer hcon
  rw [encode] at hcon
  by_cases hp : p.isEmpty = true
  · rw [if_pos hp] at hcon
    simp at hcon
  · rw [if_neg hp] at hcon
    dsimp only at hcon
    rcases hl : encodeLoop e seeds (buildFrame p) (expiryOf now timer) fuel
        (encInit e seeds) with _ | r
    · rw [hl] at hcon
      simp at hcon
    · rcases r with err | sf
      · exact encodeLoop_no_badIndex e seeds (buildFrame p) (expiryOf now timer) fuel
          (encInit e seeds) err hl
      · rw [hl] at hcon
        simp at hcon

/-- C4 witness at a concrete position with four legal moves. -/
theorem C4_no_index_error_witness :
    stepIdx eng4 (buildFrame [0]) (encInit eng4 cSeeds) <
      (eng4.legalMoves (encInit eng4 cSeeds).board).length ∧
    encode eng4 cSeeds 100 [0] 0 none ≠ some (.error .badIndex) :=
  ⟨(C4_no_index_error.1 eng4 (buildFrame [0]) (encInit eng4 cSeeds) (by decide)).2,
    C4_no_index_error.2.2 eng4 cSeeds 100 [0] 0 none⟩

/-- C5: a position with at most one legal move consumes zero bits on encode
(pushing the sole move if one exists, either onto the board or into the
finalized game) and emits zero bits on decode, which pushes the recorded
move. -/
theorem C5_forced_moves :
    (∀ (e : Engine) (seeds : Nat → Nat) (F : List Bool) (exp : Option Nat) (s s1 : EncState),
      (e.legalMoves s.board).length ≤ 1 →
      encodeIter e seeds F exp s = .ok s1 →
      s1.cursor = s.cursor ∧ s1.steps = s.steps ∧
        (s1.board = s.board ++ (e.legalMoves s.board).take 1 ∨
          (s1.board = [] ∧ s1.games =
            s.games ++ [⟨s.seed, exp, s.board ++ (e.legalMoves s.board).take 1⟩]))) ∧
    (∀ (e : Engine) (m : Nat) (ms board : List Nat) (rng : Nat),
      (e.legalMoves board).length ≤ 1 →
      replayGame e (m :: ms) board rng = replayGame e ms (board ++ [m]) rng) := by
  constructor
  · intro e seeds F exp s s1 hle hiter
    rcases encodeIter_cases e seeds F exp s s1 hiter with
      ⟨_, ⟨_, heq⟩ | ⟨_, heq⟩⟩ | ⟨hge, _⟩
    · subst heq
      exact ⟨rfl, rfl, Or.inr ⟨rfl, rfl⟩⟩
    · subst heq
      exact ⟨rfl, rfl, Or.inl rfl⟩
    · omega
  · exact replay_cons_le1

/-- C5 witness: one forced-move iteration and one forced-move replay step. -/
theorem C5_forced_moves_witness :
    wIterF.cursor = 0 ∧ wIterF.steps = [] ∧
    replayGame engF [5] [] 0 = replayGame engF [] [5] 0 := by
  have h1 := C5_forced_moves.1 engF cSeeds [] none (encInit engF cSeeds) wIterF
    (by decide) (by decide)
  have h2 := C5_forced_moves.2 engF 5 [] [] 0 (by decide)
  exact ⟨h1.1, h1.2.1, h2⟩

/-- C6: within a game both directions drive a single generator seeded once
from the game's seed; it advances exactly once per visited position with two
or more legal moves (the shuffle) and never at forced positions, so the two
directions' generator states stay synchronized. -/
theorem C6_rng_lockstep :
    (∀ (e : Engine) (seeds : Nat → Nat) (F : List Bool) (exp : Option Nat) (s s1 : EncState),
      (e.legalMoves s.board).length ≤ 1 →
      ¬ ((e.legalMoves s.board).length = 0 ∨
          e.isGameOver (s.board ++ (e.legalMoves s.board).take 1) = true) →
      encodeIter e seeds F exp s = .ok s1 →
      s1.rng = s.rng ∧ s1.seed = s.seed) ∧
    (∀ (e : Engine) (seeds : Nat → Nat) (F : List Bool) (exp : Option Nat) (s s1 : EncState),
      2 ≤ (e.legalMoves s.board).length →
      shouldEndGame e (s.board ++ [stepMv e F s]) = false →
      encodeIter e seeds F exp s = .ok s1 →
      s1.rng = e.nextR s.rng ∧ s1.seed = s.seed) ∧
    (∀ (e : Engine) (seeds : Nat → Nat) (F : List Bool) (exp : Option Nat) (s s1 : EncState),
      (e.legalMoves s.board).length ≤ 1 →
      ((e.legalMoves s.board).length = 0 ∨
          e.isGameOver (s.board ++ (e.legalMoves s.board).take 1) = true) →
      encodeIter e seeds F exp s = .ok s1 →
      s1.seed = seeds s.seedIdx ∧ s1.rng = e.initR (seeds s.seedIdx)) ∧
    (∀ (e : Engine) (m : Nat) (ms board : List Nat) (rng : Nat),
      (e.legalMoves board).length ≤ 1 →
      replayGame e (m :: ms) board rng = replayGame e ms (board ++ [m]) rng) ∧
    (∀ (e : Engine) (m : Nat) (ms board : List Nat) (rng : Nat),
      ¬ (e.legalMoves board).length ≤ 1 →
      ¬ (e.shuffleF rng (e.legalMoves board)).length ≤
          (e.shuffleF rng (e.legalMoves board)).indexOf m →
      replayGame e (m :: ms) board rng =
        match replayGame e ms (board ++ [m]) (e.nextR rng) with
        | .error _ => .error ()
        | .ok (bits, r) =>
          .ok ((if 0 < log2N (e.legalMoves board).length then
              formatBin (log2N (e.legalMoves board).length)
                ((e.shuffleF rng (e.legalMoves board)).indexOf m)
            else []) ++ bits, r)) ∧
    (∀ (e : Engine) (seeds : Nat → Nat) (F : List Bool) (exp : Option Nat) (fuel : Nat)
      (s sf : EncState),
      (∀ pos, (e.legalMoves pos).Nodup) →
      (∀ r l, (e.shuffleF r l).Perm l) →
      SyncP e s →
      encodeLoop e seeds F exp fuel s = some (.ok sf) →
      SyncP e sf) := by
  refine ⟨?_, ?_, ?_, replay_cons_le1, replay_cons_ge2, ?_⟩
  · intro e seeds F exp s s1 hle hcond hiter
    rcases encodeIter_cases e seeds F exp s s1 hiter with
      ⟨_, ⟨hcond2, heq⟩ | ⟨_, heq⟩⟩ | ⟨hge, _⟩
    · exact absurd hcond2 hcond
    · subst heq
      exact ⟨rfl, rfl⟩
    · omega
  · intro e seeds F exp s s1 hge hnend hiter
    rcases encodeIter_cases e seeds F exp s s1 hiter with
      ⟨hle, _⟩ | ⟨_, ⟨hend, _⟩ | ⟨_, heq⟩⟩
    · omega
    · rw [hnend] at hend
      cases hend
    · subst heq
      exact ⟨rfl, rfl⟩
  · intro e seeds F exp s s1 hle hcond hiter
    rcases encodeIter_cases e seeds F exp s s1 hiter with
      ⟨_, ⟨_, heq⟩ | ⟨hcond2, heq⟩⟩ | ⟨hge, _⟩
    · subst heq
      exact ⟨rfl, rfl⟩
    · exact absurd hcond hcond2
    · omega
  · intro e seeds F exp fuel s sf HND HPerm hS h
    exact encodeLoop_sync e seeds F exp HND HPerm fuel s sf hS h

/-- C6 witness: the generator stays untouched across a forced-move iteration,
and the decode replay of the final `eng4` game reproduces the encoder's
final generator state. -/
theorem C6_rng_lockstep_witness :
    wIterF.rng = (encInit engF cSeeds).rng ∧ SyncP eng4 w4sf := by
  constructor
  · exact (C6_rng_lockstep.1 engF cSeeds [] none (encInit engF cSeeds) wIterF
      (by decide) (by decide) (by decide)).1
  · exact C6_rng_lockstep.2.2.2.2.2 eng4 cSeeds (buildFrame [0]) none 100
      (encInit eng4 cSeeds) w4sf
      (fun pos => (by decide : ([0, 1, 2, 3] : List Nat).Nodup))
      (fun r l => List.Perm.refl l) ⟨[], rfl⟩ (by decide)

/-- C7: a terminating encode run consumes every bit of the wrapped bitstream
exactly once and contiguously (the consumed segments tile the stream), stops
exactly when the cursor reaches the stream length, and an in-progress game
is flushed as the last game of the set. -/
theorem C7_bit_conservation (e : Engine) (seeds : Nat → Nat) (F : List Bool)
    (exp : Option Nat) (fuel : Nat) (sf : EncState)
    (h : encodeLoop e seeds F exp fuel (encInit e seeds) = some (.ok sf)) :
    sf.cursor = F.length ∧ segsJoin sf.steps = F ∧
    (0 < F.length → sf.board ≠ []) ∧
    (sf.board ≠ [] → finishGames sf exp = sf.games ++ [⟨sf.seed, exp, sf.board⟩]) := by
  obtain ⟨c1, c2, _, c4⟩ := encodeLoop_invA e seeds F exp fuel (encInit e seeds) sf
    (Nat.zero_le _) (by rfl) (by simp [encInit]) h
  refine ⟨c1, c2, fun h0 => c4 h0, fun hb => ?_⟩
  rw [finishGames, if_neg (by simp [List.isEmpty_iff]; exact hb)]

/-- C7 witness on the `eng4` run: sixteen bits consumed, tiling the frame. -/
theorem C7_bit_conservation_witness :
    w4sf.cursor = (buildFrame [0]).length ∧ segsJoin w4sf.steps = buildFrame [0] := by
  have h := C7_bit_conservation eng4 cSeeds (buildFrame [0]) none 100 w4sf (by decide)
  exact ⟨h.1, h.2.1⟩

/-- C8: an expiry timestamp on the first game makes decode fail (deleting
the output) with the elapsed time rendered in seconds below one minute, in
floor-divided minutes below one hour, and in floor-divided hours otherwise,
before any frame parsing (the games' moves are arbitrary); without the
header decode proceeds regardless of the current time; encode computes the
expiry once as now plus the timer and stamps the identical value on every
game of the set. -/
theorem C8_expiry :
    (∀ d : Nat,
      (d < 60 → renderElapsed d = toString d ++ " seconds") ∧
      (60 ≤ d → d < 3600 → renderElapsed d = toString (d / 60) ++ " minutes") ∧
      (3600 ≤ d → renderElapsed d = toString (d / 3600) ++ " hours")) ∧
    (∀ (e : Engine) (now : Nat) (g0 : GameRec) (rest : List GameRec) (exp : Nat)
      (fs : Option (List Nat)),
      g0.expiry = some exp → exp < now →
      decodeFS e now (g0 :: rest) fs =
        (.error (.expired (renderElapsed (now - exp))), none)) ∧
    (∀ (e : Engine) (now : Nat) (g0 : GameRec) (rest : List GameRec) (exp : Nat),
      g0.expiry = some exp → ¬ exp < now →
      decode e now (g0 :: rest) = decodeBody e (g0 :: rest)) ∧
    (∀ (e : Engine) (now : Nat) (g0 : GameRec) (rest : List GameRec),
      g0.expiry = none → decode e now (g0 :: rest) = decodeBody e (g0 :: rest)) ∧
    (∀ (now : Nat) (t : Nat), 0 < t → expiryOf now (some t) = some (now + t)) ∧
    (∀ (e : Engine) (seeds : Nat → Nat) (fuel : Nat) (p : List Nat) (now : Nat)
      (timer : Option Nat) (gs : List GameRec),
      encode e seeds fuel p now timer = some (.ok gs) →
      ∀ g ∈ gs, g.expiry = expiryOf now timer) := by
  refine ⟨?_, ?_, ?_, ?_, ?_, ?_⟩
  · intro d
    refine ⟨fun h1 => ?_, fun h1 h2 => ?_, fun h1 => ?_⟩
    · rw [renderElapsed, if_pos h1]
    · rw [renderElapsed, if_neg (by omega), if_pos h2]
    · rw [renderElapsed, if_neg (by omega), if_neg (by omega)]
  · intro e now g0 rest exp fs hexp hlt
    have hdec : decode e now (g0 :: rest) =
        .error (.expired (renderElapsed (now - exp))) := by
      rw [decode, hexp]
      dsimp only
      rw [if_pos hlt]
    rw [decodeFS, hdec]
  · intro e now g0 rest exp hexp hge
    rw [decode, hexp]
    dsimp only
    rw [if_neg hge]
  · intro e now g0 rest hexp
    rw [decode, hexp]
  · intro now t ht
    rw [expiryOf, if_pos ht]
  · intro e seeds fuel p now timer gs henc g hg
    rw [encode] at henc
    by_cases hp : p.isEmpty = true
    · rw [if_pos hp] at henc
      simp at henc
    · rw [if_neg hp] at henc
      dsimp only at henc
      rcases hl : encodeLoop e seeds (buildFrame p) (expiryOf now timer) fuel
          (encInit e seeds) with _ | r
      · rw [hl] at henc
        simp at henc
      · rcases r with err | sf
        · rw [hl] at henc
          simp at henc
        · rw [hl] at henc
          simp at henc
          obtain ⟨_, _, hexpall, _⟩ := encodeLoop_invA e seeds (buildFrame p)
            (expiryOf now timer) fuel (encInit e seeds) sf (Nat.zero_le _) (by rfl)
            (by simp [encInit]) hl
          rw [← henc] at hg
          rw [finishGames] at hg
          by_cases hbe : sf.board.isEmpty = true
          · rw [if_pos hbe] at hg
            exact hexpall g hg
          · rw [if_neg hbe] at hg
            rcases List.mem_append.mp hg with hg1 | hg2
            · exact hexpall g hg1
            · simp at hg2
              simp [hg2]

/-- C8 witness: a game set that expired 50 seconds ago fails decode with the
rendered message and removes the output; the rendering thresholds at 50,
120 and 7200 seconds. -/
theorem C8_expiry_witness :
    decodeFS eng4 100 [⟨1, some 50, []⟩] (some [9]) =
      (.error (.expired (renderElapsed 50)), none) ∧
    renderElapsed 50 = toString 50 ++ " seconds" ∧
    renderElapsed 120 = toString (120 / 60) ++ " minutes" ∧
    renderElapsed 7200 = toString (7200 / 3600) ++ " hours" := by
  refine ⟨?_, ?_, ?_, ?_⟩
  · exact C8_expiry.2.1 eng4 100 ⟨1, some 50, []⟩ [] 50 (some [9]) rfl (by decide)
  · exact (C8_expiry.1 50).1 (by decide)
  · exact (C8_expiry.1 120).2.1 (by decide) (by decide)
  · exact (C8_expiry.1 7200).2.2 (by decide)

/-- C9 counterexample: encoding an empty payload raises the empty-input
error, and the previously written output record survives untouched — the
encode error path does not delete the output, refuting the claim that any
previously written output path is deleted before the error is re-raised. -/
theorem C9_cleanup_cex :
    encodeFS eng4 cSeeds 100 [] 0 none (some [gPrev]) =
      (some (.error .emptyInput), some [gPrev]) := by
  decide

/-- C9 (amended): every error aborts the whole operation; decode deletes the
output path on every error path (and writes it only on success), while
encode leaves the filesystem unchanged on error — it writes the output only
after the whole encoding succeeded. -/
theorem C9_cleanup_amended :
    (∀ (e : Engine) (now : Nat) (games : List GameRec) (fs : Option (List Nat))
      (err : DecErr),
      (decodeFS e now games fs).1 = .error err → (decodeFS e now games fs).2 = none) ∧
    (∀ (e : Engine) (now : Nat) (games : List GameRec) (fs : Option (List Nat))
      (bs : List Nat),
      (decodeFS e now games fs).1 = .ok bs → (decodeFS e now games fs).2 = some bs) ∧
    (∀ (e : Engine) (seeds : Nat → Nat) (fuel : Nat) (p : List Nat) (now : Nat)
      (timer : Option Nat) (fs : Option (List GameRec)) (err : EncErr),
      (encodeFS e seeds fuel p now timer fs).1 = some (.error err) →
      (encodeFS e seeds fuel p now timer fs).2 = fs) := by
  refine ⟨?_, ?_, ?_⟩
  · intro e now games fs err h
    rw [decodeFS] at h ⊢
    rcases hd : decode e now games with u | bs
    · rfl
    · rw [hd] at h
      simp at h
  · intro e now games fs bs h
    rw [decodeFS] at h ⊢
    rcases hd : decode e now games with u | bs2
    · rw [hd] at h
      simp at h
    · rw [hd] at h
      simp at h
      simp [h]
  · intro e seeds fuel p now timer fs err h
    rw [encodeFS] at h ⊢
    rcases hd : encode e seeds fuel p now timer with _ | r
    · rfl
    · rcases r with err2 | gs
      · rfl
      · rw [hd] at h
        simp at h

/-- C9 witness for the amended claim: a decode error removes the output and
an encode error leaves it in place. -/
theorem C9_cleanup_amended_witness :
    (decodeFS eng4 0 [] (some [9])).2 = none ∧
    (encodeFS eng4 cSeeds 100 [] 0 none (some [gPrev])).2 = some [gPrev] :=
  ⟨C9_cleanup_amended.1 eng4 0 [] (some [9]) .noGames (by decide),
    C9_cleanup_amended.2.2 eng4 cSeeds 100 [] 0 none (some [gPrev]) .emptyInput (by decide)⟩

/-- C10: at a position with `n ≥ 2` legal moves decode emits the move index
as a binary string of width `floor(log2 n)` whatever the encoder consumed
there (left-padding the index with zero bits when the final encode step was
truncated), so the extracted bitstream of the `cEngine` counterexample run
is strictly longer than the wrapped bitstream and agrees with it only on a
proper prefix. -/
theorem C10_decode_width :
    (∀ (e : Engine) (m : Nat) (ms board : List Nat) (rng : Nat),
      ¬ (e.legalMoves board).length ≤ 1 →
      ¬ (e.shuffleF rng (e.legalMoves board)).length ≤
          (e.shuffleF rng (e.legalMoves board)).indexOf m →
      replayGame e (m :: ms) board rng =
        match replayGame e ms (board ++ [m]) (e.nextR rng) with
        | .error _ => .error ()
        | .ok (bits, r) =>
          .ok ((if 0 < log2N (e.legalMoves board).length then
              formatBin (log2N (e.legalMoves board).length)
                ((e.shuffleF rng (e.legalMoves board)).indexOf m)
            else []) ++ bits, r)) ∧
    (∀ n idx : Nat, 2 ≤ n → idx < 2 ^ log2N n →
      (formatBin (log2N n) idx).length = log2N n) ∧
    (∀ (seg : List Bool) (w : Nat), seg ≠ [] → seg.length ≤ w →
      formatBin w (bitsToNat seg) = List.replicate (w - seg.length) false ++ seg) ∧
    (extractAll cEngine cGames = .ok cExtract ∧
      (buildFrame [0]).length < cExtract.length ∧
      cExtract ≠ buildFrame [0] ∧
      cExtract.take 15 = (buildFrame [0]).take 15) := by
  refine ⟨replay_cons_ge2, ?_, formatBin_pad, by decide, by decide, by decide, by decide⟩
  intro n idx h2 hlt
  exact formatBin_length (log2N n) idx hlt (log2N_pos n h2)

/-- C10 witness: the emitted width at a four-move position and the
zero-left-padding of a truncated one-bit segment to width two. -/
theorem C10_decode_width_witness :
    (formatBin (log2N 4) 3).length = log2N 4 ∧
    formatBin 2 (bitsToNat [true]) = List.replicate 1 false ++ [true] := by
  constructor
  · exact C10_decode_width.2.1 4 3 (by decide) (by decide)
  · exact C10_decode_width.2.2.1 [true] 2 (by decide) (by decide)

end ChessCodec
